import Mathlib

/-!
Shallow embedding of `createToml/getPermissions.py`.

The script reads two JSON files, `commands.json` (records
`[platform, name, rawAliases, description, helpText]`) and
`permissions.json` (records `[platform, command, node, description]`),
builds an alias index and a command-to-node map, and prints one line
`name = "node"` per command-or-alias.

Python dictionaries are modelled as association lists with
insertion-order-preserving insert (overwrite keeps the position, new keys go
to the end), Python `sorted` as insertion sort on `String`'s lexicographic
order, Python `set` as `List.dedup` followed by sorting (the script only ever
iterates sets through `sorted`, so the unspecified iteration order of a
Python set is unobservable), `str.split(",")` and `str.strip` as the
character-list functions below, and the fatal tuple-unpacking failure on a
record of the wrong arity as `Option.none` threaded through `runProgram`.
-/

/-- One record of `commands.json`'s `data` array, as unpacked by
`for pl, cmd, rawAliases, desc, helpText in commands`. -/
structure CommandRecord where
  platform : String
  name : String
  rawAliases : String
  description : String
  helpText : String
deriving DecidableEq

/-- One record of `permissions.json`'s `data` array, as unpacked by
`for pl, cmd, node, desc in permissions`. -/
structure PermRecord where
  platform : String
  command : String
  node : String
  description : String
deriving DecidableEq

/-- A Python dict with string keys: an association list in insertion order. -/
abbrev Dict (α : Type) := List (String × α)

/-- Python `d[k]` lookup, as an `Option` (`none` models `KeyError`). -/
def dictGet? {α : Type} : Dict α → String → Option α
  | [], _ => none
  | (k', v) :: m, k => if k' == k then some v else dictGet? m k

/-- Python `k in d`. -/
def dictMem {α : Type} (m : Dict α) (k : String) : Bool :=
  (dictGet? m k).isSome

/-- Python `d[k] = v`: overwrite in place if the key is present, otherwise
append at the end (insertion order). -/
def dictInsert {α : Type} : Dict α → String → α → Dict α
  | [], k, v => [(k, v)]
  | (k', v') :: m, k, v =>
    if k' == k then (k, v) :: m else (k', v') :: dictInsert m k v

/-- The keys of a dict, in insertion order. -/
def dictKeys {α : Type} (m : Dict α) : List String :=
  m.map Prod.fst

/-- The whitespace characters recognised by Python's `str.strip()`. -/
def isPySpace (c : Char) : Bool :=
  c == ' ' || c == '\t' || c == '\n' || c == '\r' || c == '\x0b' || c == '\x0c'

/-- Python `s.strip()` on the character list. -/
def pyStripData (l : List Char) : List Char :=
  ((l.dropWhile isPySpace).reverse.dropWhile isPySpace).reverse

/-- Python `s.strip()`. -/
def pyStrip (s : String) : String :=
  ⟨pyStripData s.data⟩

/-- Helper for `pySplitComma`: split the remaining characters at commas,
`acc` holding the current chunk reversed. -/
def splitCommaAux : List Char → List Char → List (List Char)
  | [], acc => [acc.reverse]
  | c :: cs, acc =>
    if c == ',' then acc.reverse :: splitCommaAux cs [] else splitCommaAux cs (c :: acc)

/-- Python `s.split(",")`: e.g. `"a,"` yields `["a", ""]` and `""` yields `[""]`. -/
def pySplitComma (s : String) : List String :=
  (splitCommaAux s.data []).map fun l => ⟨l⟩

/-- `[i.strip() for i in rawAliases.split(",")]`. -/
def parseAliases (rawAliases : String) : List String :=
  (pySplitComma rawAliases).map pyStrip

/-- The `ALIASES` dict: for each command record, skip it if the raw alias
field is falsy (empty), else store the split-and-stripped alias list under
the command name (overwriting any earlier entry). -/
def buildAliases (cmds : List CommandRecord) : Dict (List String) :=
  cmds.foldl
    (fun m r =>
      if r.rawAliases == "" then m else dictInsert m r.name (parseAliases r.rawAliases))
    []

/-- `if cmd not in commands and cmd in ALIASES: commands[cmd] = node`. -/
def permInsertNew (A : Dict (List String)) (m : Dict String) (r : PermRecord) :
    Dict String :=
  if !dictMem m r.command && dictMem A r.command then
    dictInsert m r.command r.node
  else m

/-- `if cmd in commands and len(commands[cmd]) > len(node): commands[cmd] = node`. -/
def permReplaceShorter (m : Dict String) (r : PermRecord) : Dict String :=
  match dictGet? m r.command with
  | some v => if v.length > r.node.length then dictInsert m r.command r.node else m
  | none => m

/-- One iteration of the permissions loop: skip falsy command or node;
insert the node if the command is new and has known aliases; then replace
the stored node by this one if the stored node is strictly longer. -/
def permStep (A : Dict (List String)) (m : Dict String) (r : PermRecord) : Dict String :=
  if r.command == "" || r.node == "" then m
  else permReplaceShorter (permInsertNew A m r) r

/-- The `commands` dict built by the permissions loop. -/
def buildCommandMap (A : Dict (List String)) (perms : List PermRecord) : Dict String :=
  perms.foldl (permStep A) []

/-- Lexicographic comparison of character lists by code point, the order
Python's default string comparison uses. -/
def charListLe : List Char → List Char → Bool
  | [], _ => true
  | _ :: _, [] => false
  | c :: cs, d :: ds =>
    if c.toNat < d.toNat then true
    else if d.toNat < c.toNat then false
    else charListLe cs ds

/-- Python `s1 <= s2` on strings. -/
def pyLe (s t : String) : Bool :=
  charListLe s.data t.data

/-- Python `sorted` on strings (default lexicographic order). -/
def pySorted (xs : List String) : List String :=
  List.insertionSort (fun a b => pyLe a b = true) xs

/-- Python `sorted(set(xs))`: the distinct elements in ascending order. -/
def pySortedSet (xs : List String) : List String :=
  pySorted xs.dedup

/-- The line printed for one name: `f-string` `{c} = "{node}"`. -/
def renderLine (c node : String) : String :=
  c ++ " = \"" ++ node ++ "\""

/-- The output loop: for each command of the map in sorted order, print one
line per distinct name in `sorted({cmd, *ALIASES[cmd]})`, all interpolating
the command's stored node. -/
def outputLines (A : Dict (List String)) (m : Dict String) : List String :=
  (pySortedSet (dictKeys m)).flatMap fun cmd =>
    (pySortedSet (cmd :: (dictGet? A cmd).getD [])).map fun c =>
      renderLine c ((dictGet? m cmd).getD "")

/-- The output as (command, sorted names) groups, in the order emitted. -/
def outputGroups (A : Dict (List String)) (m : Dict String) :
    List (String × List String) :=
  (pySortedSet (dictKeys m)).map fun cmd =>
    (cmd, pySortedSet (cmd :: (dictGet? A cmd).getD []))

/-- Tuple unpacking of a 5-element `commands.json` record; `none` models the
fatal `ValueError` on any other arity. -/
def unpackCommand : List String → Option CommandRecord
  | [pl, name, raw, desc, help] => some ⟨pl, name, raw, desc, help⟩
  | _ => none

/-- Tuple unpacking of a 4-element `permissions.json` record. -/
def unpackPerm : List String → Option PermRecord
  | [pl, cmd, node, desc] => some ⟨pl, cmd, node, desc⟩
  | _ => none

/-- Unpack every record in order, failing at the first malformed one. -/
def unpackAll {β : Type} (f : List String → Option β) : List (List String) → Option (List β)
  | [] => some []
  | r :: rs =>
    match f r with
    | none => none
    | some b =>
      match unpackAll f rs with
      | none => none
      | some bs => some (b :: bs)

/-- The whole script on the two `data` arrays: `none` models an abort by
unhandled exception, `some lines` the printed output. -/
def runProgram (cmdsData permsData : List (List String)) : Option (List String) :=
  match unpackAll unpackCommand cmdsData with
  | none => none
  | some cmds =>
    match unpackAll unpackPerm permsData with
    | none => none
    | some perms =>
      let A := buildAliases cmds
      some (outputLines A (buildCommandMap A perms))

/-- The nodes of the permission records that the loop actually processes for
command `cmd` (matching command, falsy fields skipped), in input order. -/
def nodesFor (cmd : String) (perms : List PermRecord) : List String :=
  (perms.filter fun r => r.command == cmd && !(r.command == "") && !(r.node == "")).map
    PermRecord.node

/-- How the loop combines the stored node with a newly seen one: a new node
replaces the stored one exactly when the stored one is strictly longer. -/
def pickNode : Option String → String → Option String
  | none, n => some n
  | some a, n => if a.length > n.length then some n else some a

/-! ### Dictionary lemmas -/

theorem dictGet?_insert_self {α : Type} (m : Dict α) (k : String) (v : α) :
    dictGet? (dictInsert m k v) k = some v := by
  induction m with
  | nil => simp [dictInsert, dictGet?]
  | cons p m ih =>
    obtain ⟨k', v'⟩ := p
    by_cases h : k' = k
    · subst h
      simp [dictInsert, dictGet?]
    · simp [dictInsert, dictGet?, h, ih]

theorem dictGet?_insert_ne {α : Type} (m : Dict α) (k k' : String) (v : α) (h : k' ≠ k) :
    dictGet? (dictInsert m k v) k' = dictGet? m k' := by
  induction m with
  | nil =>
    simp [dictInsert, dictGet?, Ne.symm h]
  | cons p m ih =>
    obtain ⟨k₀, v₀⟩ := p
    by_cases h0 : k₀ = k
    · subst h0
      simp [dictInsert, dictGet?, Ne.symm h]
    · by_cases h1 : k₀ = k'
      · subst h1
        simp [dictInsert, dictGet?, h0]
      · simp [dictInsert, dictGet?, h0, h1, ih]

theorem mem_dictKeys_iff {α : Type} (m : Dict α) (k : String) :
    k ∈ dictKeys m ↔ dictMem m k = true := by
  induction m with
  | nil => simp [dictKeys, dictMem, dictGet?]
  | cons p m ih =>
    obtain ⟨k₀, v₀⟩ := p
    by_cases h0 : k₀ = k
    · subst h0
      simp [dictKeys, dictMem, dictGet?]
    · rw [dictMem] at ih
      simp [dictKeys, dictMem, dictGet?, h0, Ne.symm h0] at ih ⊢
      exact ih

theorem dictMem_eq_false_iff {α : Type} (m : Dict α) (k : String) :
    dictMem m k = false ↔ dictGet? m k = none := by
  cases h : dictGet? m k <;> simp [dictMem, h]

/-! ### Characterizing one step of the permissions loop -/

theorem permInsertNew_get_ne (A : Dict (List String)) (m : Dict String) (r : PermRecord)
    (cmd : String) (h : cmd ≠ r.command) :
    dictGet? (permInsertNew A m r) cmd = dictGet? m cmd := by
  rw [permInsertNew]
  split
  · exact dictGet?_insert_ne m r.command cmd r.node h
  · rfl

theorem permReplaceShorter_get_ne (m : Dict String) (r : PermRecord)
    (cmd : String) (h : cmd ≠ r.command) :
    dictGet? (permReplaceShorter m r) cmd = dictGet? m cmd := by
  rw [permReplaceShorter]
  split
  · split
    · exact dictGet?_insert_ne m r.command cmd r.node h
    · rfl
  · rfl

theorem permStep_get_ne (A : Dict (List String)) (m : Dict String) (r : PermRecord)
    (cmd : String) (h : cmd ≠ r.command) :
    dictGet? (permStep A m r) cmd = dictGet? m cmd := by
  rw [permStep]
  split
  · rfl
  · rw [permReplaceShorter_get_ne _ _ _ h, permInsertNew_get_ne _ _ _ _ h]

theorem permStep_get_self (A : Dict (List String)) (m : Dict String) (r : PermRecord)
    (hc : ¬r.command = "") (hn : ¬r.node = "") (hA : dictMem A r.command = true) :
    dictGet? (permStep A m r) r.command = pickNode (dictGet? m r.command) r.node := by
  have hcb : (r.command == "") = false := by simpa using hc
  have hnb : (r.node == "") = false := by simpa using hn
  rw [permStep, hcb, hnb]
  simp only [Bool.or_self, Bool.false_eq_true, if_false]
  cases h0 : dictGet? m r.command with
  | none =>
    have hmm : dictMem m r.command = false := (dictMem_eq_false_iff m r.command).mpr h0
    have h1 : permInsertNew A m r = dictInsert m r.command r.node := by
      rw [permInsertNew, hmm, hA]
      simp
    rw [h1, permReplaceShorter, dictGet?_insert_self]
    simp [dictGet?_insert_self, pickNode]
  | some v =>
    have hmm : dictMem m r.command = true := by simp [dictMem, h0]
    have h1 : permInsertNew A m r = m := by
      rw [permInsertNew, hmm]
      simp
    rw [h1, permReplaceShorter, h0]
    by_cases hlen : v.length > r.node.length
    · simp [hlen, dictGet?_insert_self, pickNode]
    · simp [hlen, pickNode, h0]

theorem permStep_get_self_noalias (A : Dict (List String)) (m : Dict String)
    (r : PermRecord) (hA : dictMem A r.command = false)
    (hm : dictGet? m r.command = none) :
    dictGet? (permStep A m r) r.command = dictGet? m r.command := by
  rw [permStep]
  split
  · rfl
  · have h1 : permInsertNew A m r = m := by
      rw [permInsertNew, hA]
      simp
    rw [h1, permReplaceShorter, hm]
    exact hm

theorem permStep_gate (A : Dict (List String)) (m : Dict String) (r : PermRecord)
    (hm : ∀ c, dictMem A c = false → dictGet? m c = none) (c : String)
    (hA : dictMem A c = false) :
    dictGet? (permStep A m r) c = none := by
  by_cases h : c = r.command
  · subst h
    rw [permStep_get_self_noalias A m r hA (hm _ hA)]
    exact hm _ hA
  · rw [permStep_get_ne A m r c h]
    exact hm c hA

theorem permStep_skip (A : Dict (List String)) (m : Dict String) (r : PermRecord)
    (h : (r.command == "" || r.node == "") = true) : permStep A m r = m := by
  rw [permStep, if_pos h]

theorem nodesFor_cons (cmd : String) (r : PermRecord) (perms : List PermRecord) :
    nodesFor cmd (r :: perms) =
      if (r.command == cmd && !(r.command == "") && !(r.node == "")) = true
      then r.node :: nodesFor cmd perms
      else nodesFor cmd perms := by
  rw [nodesFor, nodesFor, List.filter_cons]
  split
  · simp
  · simp

theorem foldl_permStep_get (A : Dict (List String)) (perms : List PermRecord) :
    ∀ (m : Dict String), (∀ c, dictMem A c = false → dictGet? m c = none) →
      ∀ cmd, dictGet? (perms.foldl (permStep A) m) cmd =
        if dictMem A cmd = true
        then (nodesFor cmd perms).foldl pickNode (dictGet? m cmd)
        else dictGet? m cmd := by
  induction perms with
  | nil =>
    intro m hm cmd
    rw [List.foldl_nil, nodesFor]
    simp only [List.filter_nil, List.map_nil, List.foldl_nil]
    split <;> rfl
  | cons r perms ih =>
    intro m hm cmd
    rw [List.foldl_cons, nodesFor_cons,
      ih (permStep A m r) (fun c hc => permStep_gate A m r hm c hc) cmd]
    by_cases hA : dictMem A cmd
    · rw [if_pos hA, if_pos hA]
      by_cases heq : r.command = cmd
      · subst heq
        by_cases hc : r.command = ""
        · have hskip : (r.command == "" || r.node == "") = true := by simp [hc]
          have hmatch : (r.command == r.command && !(r.command == "") && !(r.node == "")) = false := by
            simp [hc]
          rw [permStep_skip A m r hskip, hmatch]
          simp
        · by_cases hn : r.node = ""
          · have hskip : (r.command == "" || r.node == "") = true := by simp [hn]
            have hmatch : (r.command == r.command && !(r.command == "") && !(r.node == "")) = false := by
              simp [hn]
            rw [permStep_skip A m r hskip, hmatch]
            simp
          · have hmatch : (r.command == r.command && !(r.command == "") && !(r.node == "")) = true := by
              simp [hc, hn]
            rw [permStep_get_self A m r hc hn hA, hmatch]
            simp
      · have hmatch : (r.command == cmd && !(r.command == "") && !(r.node == "")) = false := by
          simp [heq]
        rw [permStep_get_ne A m r cmd (fun hh => heq hh.symm), hmatch]
        simp
    · have hA' : dictMem A cmd = false := by simpa using hA
      rw [if_neg hA, if_neg hA, permStep_gate A m r hm cmd hA', hm cmd hA']

theorem buildCommandMap_get (A : Dict (List String)) (perms : List PermRecord)
    (cmd : String) :
    dictGet? (buildCommandMap A perms) cmd =
      if dictMem A cmd = true
      then (nodesFor cmd perms).foldl pickNode none
      else none := by
  rw [buildCommandMap, foldl_permStep_get A perms [] (fun c _ => rfl) cmd]
  rfl

/-! ### What the fold of pickNode computes: the first node of minimal length -/

theorem foldl_pickNode_isSome (xs : List String) :
    ∀ (a : String), (xs.foldl pickNode (some a)).isSome = true := by
  induction xs with
  | nil => intro a; rfl
  | cons x xs ih =>
    intro a
    rw [List.foldl_cons]
    by_cases h : a.length > x.length <;> simp [pickNode, h, ih]

theorem foldl_pickNode_spec (xs : List String) :
    ∀ (a n : String), xs.foldl pickNode (some a) = some n →
      n.length ≤ a.length ∧ (∀ x ∈ xs, n.length ≤ x.length) ∧
      (a :: xs).find? (fun x => x.length == n.length) = some n := by
  induction xs with
  | nil =>
    intro a n h
    rw [List.foldl_nil] at h
    obtain rfl : a = n := by injection h
    refine ⟨le_refl _, by simp, ?_⟩
    simp [List.find?]
  | cons x xs ih =>
    intro a n h
    rw [List.foldl_cons] at h
    by_cases hx : a.length > x.length
    · rw [show pickNode (some a) x = some x by simp [pickNode, hx]] at h
      obtain ⟨h1, h2, h3⟩ := ih x n h
      have hna : n.length < a.length := lt_of_le_of_lt h1 hx
      refine ⟨le_of_lt hna, ?_, ?_⟩
      · intro y hy
        rcases List.mem_cons.mp hy with rfl | hy
        · exact h1
        · exact h2 y hy
      · have hpa : ¬(a.length == n.length) = true := by
          simp
          exact Nat.ne_of_gt hna
        rw [@List.find?_cons_of_neg String (fun y => y.length == n.length) a (x :: xs) hpa]
        exact h3
    · rw [show pickNode (some a) x = some a by simp [pickNode, hx]] at h
      obtain ⟨h1, h2, h3⟩ := ih a n h
      have hax : a.length ≤ x.length := Nat.le_of_not_lt hx
      refine ⟨h1, ?_, ?_⟩
      · intro y hy
        rcases List.mem_cons.mp hy with rfl | hy
        · exact le_trans h1 hax
        · exact h2 y hy
      · by_cases hpa : (a.length == n.length) = true
        · have hfa : (a :: (x :: xs)).find? (fun y => y.length == n.length) = some a :=
            @List.find?_cons_of_pos String (fun y => y.length == n.length) a (x :: xs) hpa
          have hfa' : (a :: xs).find? (fun y => y.length == n.length) = some a :=
            @List.find?_cons_of_pos String (fun y => y.length == n.length) a xs hpa
          rw [hfa'] at h3
          rw [hfa]
          exact h3
        · have hane : a.length ≠ n.length := by simpa using hpa
          have hna : n.length < a.length := lt_of_le_of_ne h1 (Ne.symm hane)
          have hpx : ¬(x.length == n.length) = true := by
            simp
            exact Nat.ne_of_gt (lt_of_lt_of_le hna hax)
          rw [@List.find?_cons_of_neg String (fun y => y.length == n.length) a xs hpa] at h3
          rw [@List.find?_cons_of_neg String (fun y => y.length == n.length) a (x :: xs) hpa,
            @List.find?_cons_of_neg String (fun y => y.length == n.length) x xs hpx]
          exact h3

theorem buildCommandMap_get_spec (A : Dict (List String)) (perms : List PermRecord)
    (cmd n : String) (h : dictGet? (buildCommandMap A perms) cmd = some n) :
    n ∈ nodesFor cmd perms ∧ (∀ x ∈ nodesFor cmd perms, n.length ≤ x.length) ∧
      (nodesFor cmd perms).find? (fun x => x.length == n.length) = some n := by
  rw [buildCommandMap_get] at h
  by_cases hA : dictMem A cmd
  · rw [if_pos hA] at h
    cases hns : nodesFor cmd perms with
    | nil =>
      rw [hns, List.foldl_nil] at h
      cases h
    | cons x xs =>
      rw [hns, List.foldl_cons] at h
      rw [show pickNode none x = some x from rfl] at h
      obtain ⟨h1, h2, h3⟩ := foldl_pickNode_spec xs x n h
      refine ⟨?_, ?_, h3⟩
      · exact List.mem_of_find?_eq_some h3
      · intro y hy
        rcases List.mem_cons.mp hy with rfl | hy
        · exact h1
        · exact h2 y hy
  · rw [if_neg hA] at h
    cases h

/-! ### Characterizing the alias index -/

theorem buildAliases_get (cmds : List CommandRecord) (cmd : String) :
    dictGet? (buildAliases cmds) cmd =
      (cmds.reverse.find? fun t => t.name == cmd && !(t.rawAliases == "")).map
        fun t => parseAliases t.rawAliases := by
  induction cmds using List.reverseRecOn with
  | nil => rfl
  | append_singleton xs x ih =>
    have hfold : buildAliases (xs ++ [x]) =
        if x.rawAliases == "" then buildAliases xs
        else dictInsert (buildAliases xs) x.name (parseAliases x.rawAliases) := by
      rw [buildAliases, List.foldl_append, List.foldl_cons, List.foldl_nil]
      rfl
    have hrev : (xs ++ [x]).reverse = x :: xs.reverse := by simp
    rw [hfold, hrev]
    by_cases hx : x.rawAliases = ""
    · have hp : (x.name == cmd && !(x.rawAliases == "")) = false := by simp [hx]
      rw [if_pos (by simp [hx]),
        @List.find?_cons_of_neg CommandRecord
          (fun t => t.name == cmd && !(t.rawAliases == "")) x xs.reverse (by simp [hp])]
      exact ih
    · rw [if_neg (by simpa using hx)]
      by_cases hn : x.name = cmd
      · have hp : (x.name == cmd && !(x.rawAliases == "")) = true := by simp [hn, hx]
        rw [@List.find?_cons_of_pos CommandRecord
          (fun t => t.name == cmd && !(t.rawAliases == "")) x xs.reverse hp,
          hn, dictGet?_insert_self]
        rfl
      · have hp : (x.name == cmd && !(x.rawAliases == "")) = false := by simp [hn]
        rw [@List.find?_cons_of_neg CommandRecord
          (fun t => t.name == cmd && !(t.rawAliases == "")) x xs.reverse (by simp [hp]),
          dictGet?_insert_ne _ _ _ _ (fun hh => hn hh.symm)]
        exact ih

/-! ### Sorting and set semantics of the output loop -/

theorem mem_pySortedSet (x : String) (xs : List String) :
    x ∈ pySortedSet xs ↔ x ∈ xs := by
  rw [pySortedSet, pySorted, (List.perm_insertionSort _ _).mem_iff]
  exact List.mem_dedup

theorem charListLe_total (l1 l2 : List Char) :
    charListLe l1 l2 = true ∨ charListLe l2 l1 = true := by
  induction l1 generalizing l2 with
  | nil => exact Or.inl rfl
  | cons a as ih =>
    cases l2 with
    | nil => exact Or.inr rfl
    | cons b bs =>
      rcases Nat.lt_trichotomy a.toNat b.toNat with hab | hab | hab
      · exact Or.inl (by simp [charListLe, hab])
      · rcases ih bs with h | h
        · exact Or.inl (by simp [charListLe, hab, h])
        · exact Or.inr (by simp [charListLe, hab, h])
      · exact Or.inr (by simp [charListLe, hab])

theorem charListLe_trans (l1 l2 l3 : List Char) (h1 : charListLe l1 l2 = true)
    (h2 : charListLe l2 l3 = true) : charListLe l1 l3 = true := by
  induction l1 generalizing l2 l3 with
  | nil => rfl
  | cons a as ih =>
    cases l2 with
    | nil => simp [charListLe] at h1
    | cons b bs =>
      cases l3 with
      | nil => simp [charListLe] at h2
      | cons c cs =>
        rcases Nat.lt_trichotomy a.toNat b.toNat with hab | hab | hab
        · rcases Nat.lt_trichotomy b.toNat c.toNat with hbc | hbc | hbc
          · simp [charListLe, Nat.lt_trans hab hbc]
          · simp [charListLe, hbc ▸ hab]
          · simp [charListLe, Nat.lt_asymm hbc, hbc] at h2
        · rw [show charListLe (a :: as) (b :: bs) =
              charListLe as bs by simp [charListLe, hab]] at h1
          rcases Nat.lt_trichotomy b.toNat c.toNat with hbc | hbc | hbc
          · simp [charListLe, hab ▸ hbc]
          · rw [show charListLe (b :: bs) (c :: cs) =
                charListLe bs cs by simp [charListLe, hbc]] at h2
            have hac : a.toNat = c.toNat := hab.trans hbc
            simp only [charListLe, hac, lt_irrefl, if_false]
            exact ih bs cs h1 h2
          · simp [charListLe, Nat.lt_asymm hbc, hbc] at h2
        · simp [charListLe, Nat.lt_asymm hab, hab] at h1

theorem charListLe_lt (l1 l2 : List Char) (h : charListLe l1 l2 = true)
    (hne : l1 ≠ l2) : List.lt l1 l2 := by
  induction l1 generalizing l2 with
  | nil =>
    cases l2 with
    | nil => exact absurd rfl hne
    | cons b bs => exact List.lt.nil b bs
  | cons a as ih =>
    cases l2 with
    | nil => simp [charListLe] at h
    | cons b bs =>
      rcases Nat.lt_trichotomy a.toNat b.toNat with hab | hab | hab
      · exact List.lt.head as bs hab
      · have hab' : a = b := Char.eq_of_val_eq (UInt32.ext hab)
        subst hab'
        rw [show charListLe (a :: as) (a :: bs) =
            charListLe as bs by simp [charListLe]] at h
        have hne' : as ≠ bs := fun hh => hne (by rw [hh])
        exact List.lt.tail (lt_irrefl _) (lt_irrefl _) (ih bs h hne')
      · simp [charListLe, Nat.lt_asymm hab, hab] at h

theorem pyLe_lt_of_ne (s t : String) (h : pyLe s t = true) (hne : s ≠ t) : s < t := by
  have hd : s.data ≠ t.data := fun hh => hne (by cases s; cases t; cases hh; rfl)
  rw [String.lt_iff_toList_lt]
  exact (List.lt_iff_lex_lt s.data t.data).mp (charListLe_lt s.data t.data h hd)

instance : IsTotal String fun a b => pyLe a b = true :=
  ⟨fun a b => charListLe_total a.data b.data⟩

instance : IsTrans String fun a b => pyLe a b = true :=
  ⟨fun a b c => charListLe_trans a.data b.data c.data⟩

theorem pairwise_lt_pySortedSet (xs : List String) :
    List.Pairwise (· < ·) (pySortedSet xs) := by
  have hs : List.Sorted (fun a b => pyLe a b = true) (pySortedSet xs) :=
    List.sorted_insertionSort _ _
  have hnd : (pySortedSet xs).Nodup :=
    ((List.perm_insertionSort (fun a b => pyLe a b = true) xs.dedup).symm).nodup
      (List.nodup_dedup xs)
  exact (List.Pairwise.and hs hnd).imp fun h => pyLe_lt_of_ne _ _ h.1 h.2

theorem mem_outputLines (A : Dict (List String)) (m : Dict String) (cmd n c : String)
    (hn : dictGet? m cmd = some n) (hc : c ∈ cmd :: (dictGet? A cmd).getD []) :
    renderLine c n ∈ outputLines A m := by
  rw [outputLines, List.mem_flatMap]
  refine ⟨cmd, ?_, ?_⟩
  · rw [mem_pySortedSet, mem_dictKeys_iff]
    simp [dictMem, hn]
  · rw [List.mem_map]
    refine ⟨c, ?_, ?_⟩
    · rw [mem_pySortedSet]
      exact hc
    · rw [hn]
      rfl

/-! ### Alias fields made of whitespace and commas -/

theorem pyStrip_all_space (l : List Char) (h : ∀ c ∈ l, isPySpace c = true) :
    pyStrip ⟨l⟩ = "" := by
  have h1 : l.dropWhile isPySpace = [] := List.dropWhile_eq_nil_iff.mpr h
  have h2 : pyStripData l = [] := by
    rw [pyStripData, h1]
    rfl
  rw [pyStrip]
  show (⟨pyStripData l⟩ : String) = ""
  rw [h2]

theorem splitCommaAux_ne_nil (cs : List Char) : ∀ acc, splitCommaAux cs acc ≠ [] := by
  induction cs with
  | nil =>
    intro acc
    simp [splitCommaAux]
  | cons c cs ih =>
    intro acc
    rw [splitCommaAux]
    by_cases h : c == ','
    · simp [h]
    · simp only [h, Bool.false_eq_true, if_false]
      exact ih (c :: acc)

theorem splitCommaAux_all_space (cs : List Char)
    (hcs : ∀ c ∈ cs, (isPySpace c || c == ',') = true) :
    ∀ acc, (∀ c ∈ acc, isPySpace c = true) →
      ∀ piece ∈ splitCommaAux cs acc, ∀ c ∈ piece, isPySpace c = true := by
  induction cs with
  | nil =>
    intro acc hacc piece hp c hc
    rw [splitCommaAux] at hp
    simp only [List.mem_singleton] at hp
    subst hp
    exact hacc c (List.mem_reverse.mp hc)
  | cons c0 cs ih =>
    intro acc hacc piece hp c hc
    have hcs' : ∀ c ∈ cs, (isPySpace c || c == ',') = true := fun c h =>
      hcs c (List.mem_cons_of_mem _ h)
    rw [splitCommaAux] at hp
    by_cases h0 : (c0 == ',') = true
    · rw [if_pos h0] at hp
      rcases List.mem_cons.mp hp with rfl | hp
      · exact hacc c (List.mem_reverse.mp hc)
      · exact ih hcs' [] (by simp) piece hp c hc
    · rw [if_neg h0] at hp
      have hc0 : isPySpace c0 = true := by
        have hh := hcs c0 (List.mem_cons_self _ _)
        have h0' : (c0 == ',') = false := by simpa using h0
        rw [h0'] at hh
        simpa using hh
      refine ih hcs' (c0 :: acc) ?_ piece hp c hc
      intro d hd
      rcases List.mem_cons.mp hd with rfl | hd
      · exact hc0
      · exact hacc d hd

theorem mem_empty_parseAliases (raw : String)
    (h : ∀ c ∈ raw.data, (isPySpace c || c == ',') = true) :
    "" ∈ parseAliases raw := by
  rw [parseAliases, pySplitComma]
  cases hsp : splitCommaAux raw.data [] with
  | nil => exact absurd hsp (splitCommaAux_ne_nil _ _)
  | cons p ps =>
    have hall : ∀ c ∈ p, isPySpace c = true := fun c hc =>
      splitCommaAux_all_space raw.data h [] (by simp) p
        (by rw [hsp]; exact List.mem_cons_self _ _) c hc
    rw [List.map_cons, List.map_cons, ← pyStrip_all_space p hall]
    exact List.mem_cons_self _ _

/-! ### Wrong-arity records and the remaining plumbing -/

theorem unpackCommand_eq_none (r : List String) (h : r.length ≠ 5) :
    unpackCommand r = none := by
  rcases r with _ | ⟨a, _ | ⟨b, _ | ⟨c, _ | ⟨d, _ | ⟨e, _ | ⟨f, rest⟩⟩⟩⟩⟩⟩
  · rfl
  · rfl
  · rfl
  · rfl
  · rfl
  · exact absurd rfl h
  · rfl

theorem unpackPerm_eq_none (r : List String) (h : r.length ≠ 4) :
    unpackPerm r = none := by
  rcases r with _ | ⟨a, _ | ⟨b, _ | ⟨c, _ | ⟨d, _ | ⟨e, rest⟩⟩⟩⟩⟩
  · rfl
  · rfl
  · rfl
  · rfl
  · exact absurd rfl h
  · rfl

theorem unpackAll_eq_none {β : Type} (f : List String → Option β)
    (l : List (List String)) (r : List String) (hr : r ∈ l) (hf : f r = none) :
    unpackAll f l = none := by
  induction l with
  | nil => cases hr
  | cons x xs ih =>
    rcases List.mem_cons.mp hr with rfl | hr'
    · rw [unpackAll, hf]
    · rw [unpackAll]
      cases hx : f x with
      | none => rfl
      | some b => rw [ih hr']

theorem outputLines_eq_groups (A : Dict (List String)) (m : Dict String) :
    outputLines A m = (outputGroups A m).flatMap
      fun g => g.2.map fun c => renderLine c ((dictGet? m g.1).getD "") := by
  rw [outputLines, outputGroups, List.flatMap_map]

theorem buildCommandMap_get_isSome (A : Dict (List String)) (perms : List PermRecord)
    (cmd : String) (hA : dictMem A cmd = true) (hne : nodesFor cmd perms ≠ []) :
    ∃ n, dictGet? (buildCommandMap A perms) cmd = some n := by
  rw [buildCommandMap_get, if_pos hA]
  cases hns : nodesFor cmd perms with
  | nil => exact absurd hns hne
  | cons x xs =>
    rw [List.foldl_cons]
    exact Option.isSome_iff_exists.mp (foldl_pickNode_isSome xs x)

/-! ### The claims -/

/-- Claim C1, counterexample: with command `ban` (aliases `b, banish`) and the
two permission records for `ban` carrying nodes `group.mod.ban` then
`mod.ban`, the longest node among them is `group.mod.ban`, yet the final
command-to-node map stores `mod.ban`: the map does not keep the longest node. -/
theorem claim_C1_counterexample :
    dictMem (buildAliases [⟨"any", "ban", "b, banish", "desc", "help"⟩]) "ban" = true ∧
    nodesFor "ban"
        [⟨"any", "ban", "group.mod.ban", "desc"⟩, ⟨"any", "ban", "mod.ban", "desc"⟩] =
      ["group.mod.ban", "mod.ban"] ∧
    (∀ x ∈ nodesFor "ban"
        [⟨"any", "ban", "group.mod.ban", "desc"⟩, ⟨"any", "ban", "mod.ban", "desc"⟩],
      x.length ≤ ("group.mod.ban" : String).length) ∧
    dictGet? (buildCommandMap (buildAliases [⟨"any", "ban", "b, banish", "desc", "help"⟩])
        [⟨"any", "ban", "group.mod.ban", "desc"⟩, ⟨"any", "ban", "mod.ban", "desc"⟩]) "ban" =
      some "mod.ban" ∧
    ("mod.ban" : String) ≠ "group.mod.ban" := by
  decide

/-- Claim C1 (amended): whenever the final command-to-node map stores a node
`n` for a command, `n` is one of the processed nodes for that command, is of
minimal character length among them (regardless of input order), and on equal
lengths the first node encountered is kept (`n` is the first processed node of
its length). -/
theorem claim_C1_amended (A : Dict (List String)) (perms : List PermRecord)
    (cmd n : String)
    (hn : dictGet? (buildCommandMap A perms) cmd = some n) :
    n ∈ nodesFor cmd perms ∧ (∀ x ∈ nodesFor cmd perms, n.length ≤ x.length) ∧
      (nodesFor cmd perms).find? (fun x => x.length == n.length) = some n :=
  buildCommandMap_get_spec A perms cmd n hn

/-- Claim C1, witness: the amended claim applied to the concrete records of
the counterexample. -/
theorem claim_C1_witness :
    ("mod.ban" : String) ∈ nodesFor "ban"
        [⟨"any", "ban", "group.mod.ban", "desc"⟩, ⟨"any", "ban", "mod.ban", "desc"⟩] ∧
    (∀ x ∈ nodesFor "ban"
        [⟨"any", "ban", "group.mod.ban", "desc"⟩, ⟨"any", "ban", "mod.ban", "desc"⟩],
      ("mod.ban" : String).length ≤ x.length) ∧
    (nodesFor "ban"
        [⟨"any", "ban", "group.mod.ban", "desc"⟩, ⟨"any", "ban", "mod.ban", "desc"⟩]).find?
      (fun x => x.length == ("mod.ban" : String).length) = some "mod.ban" :=
  claim_C1_amended (buildAliases [⟨"any", "ban", "b, banish", "desc", "help"⟩])
    [⟨"any", "ban", "group.mod.ban", "desc"⟩, ⟨"any", "ban", "mod.ban", "desc"⟩]
    "ban" "mod.ban" (by decide)

/-- Claim C2, counterexample: on the spec's example input the program does not
print the three `group.mod.ban` lines the claim states. -/
theorem claim_C2_counterexample :
    runProgram [["any", "ban", "b, banish", "desc", "help"]]
        [["any", "ban", "group.mod.ban", "desc"], ["any", "ban", "mod.ban", "desc"]] ≠
      some ["b = \"group.mod.ban\"", "ban = \"group.mod.ban\"",
        "banish = \"group.mod.ban\""] := by
  decide

/-- Claim C2 (amended): on that input the output is the three lines
interpolating `mod.ban`, the shorter of the two nodes, in the order
`b`, `ban`, `banish`. -/
theorem claim_C2_amended :
    runProgram [["any", "ban", "b, banish", "desc", "help"]]
        [["any", "ban", "group.mod.ban", "desc"], ["any", "ban", "mod.ban", "desc"]] =
      some ["b = \"mod.ban\"", "ban = \"mod.ban\"", "banish = \"mod.ban\""] := by
  decide

/-- Claim C3: for every command `cmd` whose alias-index entry is `al` (the
command record had a non-empty raw alias field) and for which at least one
permission record with command `cmd` and a non-empty node exists, the output
contains a line for `cmd` itself and a line for every alias in `al`, all
interpolating the same resolved node value. -/
theorem claim_C3 (cmds : List CommandRecord) (perms : List PermRecord)
    (cmd : String) (al : List String)
    (hA : dictGet? (buildAliases cmds) cmd = some al)
    (hex : ∃ r ∈ perms, r.command = cmd ∧ cmd ≠ "" ∧ r.node ≠ "") :
    ∃ n, dictGet? (buildCommandMap (buildAliases cmds) perms) cmd = some n ∧
      renderLine cmd n ∈
        outputLines (buildAliases cmds) (buildCommandMap (buildAliases cmds) perms) ∧
      ∀ a ∈ al, renderLine a n ∈
        outputLines (buildAliases cmds) (buildCommandMap (buildAliases cmds) perms) := by
  have hAmem : dictMem (buildAliases cmds) cmd = true := by
    rw [dictMem, hA]
    rfl
  have hne : nodesFor cmd perms ≠ [] := by
    obtain ⟨r, hr, hcmd, hc0, hn0⟩ := hex
    intro hcon
    have hf : r ∈ perms.filter
        fun r => r.command == cmd && !(r.command == "") && !(r.node == "") := by
      rw [List.mem_filter]
      refine ⟨hr, ?_⟩
      rw [hcmd]
      simp [hc0, hn0]
    have hmem : r.node ∈ nodesFor cmd perms := by
      rw [nodesFor]
      exact List.mem_map_of_mem _ hf
    rw [hcon] at hmem
    cases hmem
  obtain ⟨n, hn⟩ := buildCommandMap_get_isSome (buildAliases cmds) perms cmd hAmem hne
  refine ⟨n, hn, ?_, ?_⟩
  · exact mem_outputLines _ _ cmd n cmd hn (List.mem_cons_self _ _)
  · intro a ha
    refine mem_outputLines _ _ cmd n a hn ?_
    rw [hA]
    exact List.mem_cons_of_mem _ ha

/-- Claim C3, witness: the spec example's command record with one matching
permission record. -/
theorem claim_C3_witness :
    ∃ n, dictGet? (buildCommandMap
        (buildAliases [⟨"any", "ban", "b, banish", "desc", "help"⟩])
        [⟨"any", "ban", "mod.ban", "desc"⟩]) "ban" = some n ∧
      renderLine "ban" n ∈
        outputLines (buildAliases [⟨"any", "ban", "b, banish", "desc", "help"⟩])
          (buildCommandMap (buildAliases [⟨"any", "ban", "b, banish", "desc", "help"⟩])
            [⟨"any", "ban", "mod.ban", "desc"⟩]) ∧
      ∀ a ∈ ["b", "banish"], renderLine a n ∈
        outputLines (buildAliases [⟨"any", "ban", "b, banish", "desc", "help"⟩])
          (buildCommandMap (buildAliases [⟨"any", "ban", "b, banish", "desc", "help"⟩])
            [⟨"any", "ban", "mod.ban", "desc"⟩]) :=
  claim_C3 [⟨"any", "ban", "b, banish", "desc", "help"⟩]
    [⟨"any", "ban", "mod.ban", "desc"⟩] "ban" ["b", "banish"] (by decide)
    ⟨⟨"any", "ban", "mod.ban", "desc"⟩, by decide, by decide, by decide, by decide⟩

/-- Claim C4: every key of the command-to-node map, after processing any
prefix of the permission records (hence at every step of the construction and
in particular at the end), is a key of the alias index. -/
theorem claim_C4 (A : Dict (List String)) (perms : List PermRecord) (k : ℕ)
    (cmd : String)
    (h : cmd ∈ dictKeys (buildCommandMap A (perms.take k))) :
    dictMem A cmd = true := by
  by_contra hc
  have hA : dictMem A cmd = false := by simpa using hc
  have hmem := (mem_dictKeys_iff _ cmd).mp h
  rw [dictMem, buildCommandMap_get, if_neg (by simp [hA])] at hmem
  simp at hmem

/-- Claim C4, witness: the invariant applied to a one-record prefix. -/
theorem claim_C4_witness :
    dictMem [("ban", ["b"])] "ban" = true :=
  claim_C4 [("ban", ["b"])] [⟨"any", "ban", "mod.ban", "desc"⟩] 1 "ban" (by decide)

/-- Claim C5: the output is the concatenation of per-command groups; the
commands heading the groups are in strictly ascending lexicographic order,
and within each group the names (the command and its aliases, exact
duplicates collapsed) are in strictly ascending lexicographic order. -/
theorem claim_C5 (A : Dict (List String)) (m : Dict String) :
    outputLines A m = ((outputGroups A m).flatMap
        fun g => g.2.map fun c => renderLine c ((dictGet? m g.1).getD "")) ∧
    List.Pairwise (· < ·) ((outputGroups A m).map Prod.fst) ∧
    ∀ g ∈ outputGroups A m, List.Pairwise (· < ·) g.2 := by
  refine ⟨outputLines_eq_groups A m, ?_, ?_⟩
  · rw [outputGroups, List.map_map]
    have hid : (Prod.fst ∘ fun cmd =>
        (cmd, pySortedSet (cmd :: (dictGet? A cmd).getD []))) = id := rfl
    rw [hid, List.map_id]
    exact pairwise_lt_pySortedSet _
  · intro g hg
    rw [outputGroups, List.mem_map] at hg
    obtain ⟨cmd, _, rfl⟩ := hg
    exact pairwise_lt_pySortedSet _

/-- Claim C5, witness: the within-group ordering instantiated on the spec
example's single group. -/
theorem claim_C5_witness :
    ∃ g ∈ outputGroups [("ban", ["b", "banish"])] [("ban", "mod.ban")],
      List.Pairwise (· < ·) g.2 :=
  ⟨("ban", pySortedSet ["ban", "b", "banish"]), by decide,
    (claim_C5 [("ban", ["b", "banish"])] [("ban", "mod.ban")]).2.2
      ("ban", pySortedSet ["ban", "b", "banish"]) (by decide)⟩

/-- Claim C6: a command all of whose command records have an empty raw alias
field (in particular one with no command record at all) is absent from the
alias index, absent from the final command-to-node map, and heads no output
group, even when matching permission records with non-empty nodes exist. -/
theorem claim_C6 (cmds : List CommandRecord) (perms : List PermRecord) (cmd : String)
    (h : ∀ r ∈ cmds, r.name = cmd → r.rawAliases = "") :
    dictMem (buildAliases cmds) cmd = false ∧
    cmd ∉ dictKeys (buildCommandMap (buildAliases cmds) perms) ∧
    cmd ∉ (outputGroups (buildAliases cmds)
      (buildCommandMap (buildAliases cmds) perms)).map Prod.fst := by
  have hA : dictGet? (buildAliases cmds) cmd = none := by
    rw [buildAliases_get]
    have hf : (cmds.reverse.find?
        fun t => t.name == cmd && !(t.rawAliases == "")) = none := by
      rw [List.find?_eq_none]
      intro t ht hp
      have ht' : t ∈ cmds := List.mem_reverse.mp ht
      simp only [Bool.and_eq_true, beq_iff_eq, Bool.not_eq_true', beq_eq_false_iff_ne] at hp
      exact hp.2 (h t ht' hp.1)
    rw [hf]
    rfl
  have hAm : dictMem (buildAliases cmds) cmd = false := by
    rw [dictMem, hA]
    rfl
  have hM : dictGet? (buildCommandMap (buildAliases cmds) perms) cmd = none := by
    rw [buildCommandMap_get, if_neg (by simp [hAm])]
  have hMk : cmd ∉ dictKeys (buildCommandMap (buildAliases cmds) perms) := by
    rw [mem_dictKeys_iff, dictMem, hM]
    simp
  refine ⟨hAm, hMk, ?_⟩
  intro hg
  rw [outputGroups, List.map_map] at hg
  have hid : (Prod.fst ∘ fun c =>
      (c, pySortedSet (c :: (dictGet? (buildAliases cmds) c).getD []))) = id := rfl
  rw [hid, List.map_id, mem_pySortedSet] at hg
  exact hMk hg

/-- Claim C6, witness: a command whose only record has an empty alias field,
with a matching permission record present. -/
theorem claim_C6_witness :
    dictMem (buildAliases [⟨"any", "ban", "", "desc", "help"⟩]) "ban" = false ∧
    "ban" ∉ dictKeys (buildCommandMap (buildAliases [⟨"any", "ban", "", "desc", "help"⟩])
      [⟨"any", "ban", "mod.ban", "desc"⟩]) ∧
    "ban" ∉ (outputGroups (buildAliases [⟨"any", "ban", "", "desc", "help"⟩])
      (buildCommandMap (buildAliases [⟨"any", "ban", "", "desc", "help"⟩])
        [⟨"any", "ban", "mod.ban", "desc"⟩])).map Prod.fst :=
  claim_C6 [⟨"any", "ban", "", "desc", "help"⟩] [⟨"any", "ban", "mod.ban", "desc"⟩]
    "ban" (by decide)

/-- Claim C7: the alias index maps a command name to exactly the list
obtained by splitting the raw alias field of its last command record with a
non-empty alias field on commas and stripping each piece, preserving order
and duplicates (last record wins when the name occurs several times). -/
theorem claim_C7 (cmds : List CommandRecord) (cmd : String) (r : CommandRecord)
    (h : cmds.reverse.find? (fun t => t.name == cmd && !(t.rawAliases == "")) = some r) :
    dictGet? (buildAliases cmds) cmd = some ((pySplitComma r.rawAliases).map pyStrip) := by
  rw [buildAliases_get, h]
  rfl

/-- Claim C7, witness: the same command name appears in two records with
non-empty alias fields; the later record's split-and-stripped list is stored. -/
theorem claim_C7_witness :
    dictGet? (buildAliases [⟨"any", "ban", "x", "d", "h"⟩,
      ⟨"any", "ban", "b, banish", "d", "h"⟩]) "ban" =
      some ((pySplitComma "b, banish").map pyStrip) :=
  claim_C7 [⟨"any", "ban", "x", "d", "h"⟩, ⟨"any", "ban", "b, banish", "d", "h"⟩]
    "ban" ⟨"any", "ban", "b, banish", "d", "h"⟩ (by decide)

/-- Claim C8: the transformation is deterministic; on equal file contents two
runs produce identical output. -/
theorem claim_C8 (cd pd cd' pd' : List (List String)) (h1 : cd = cd') (h2 : pd = pd') :
    runProgram cd pd = runProgram cd' pd' := by
  rw [h1, h2]

/-- Claim C8, witness: two runs on the spec example's input coincide. -/
theorem claim_C8_witness :
    runProgram [["any", "ban", "b, banish", "desc", "help"]]
        [["any", "ban", "mod.ban", "desc"]] =
      runProgram [["any", "ban", "b, banish", "desc", "help"]]
        [["any", "ban", "mod.ban", "desc"]] :=
  claim_C8 [["any", "ban", "b, banish", "desc", "help"]]
    [["any", "ban", "mod.ban", "desc"]]
    [["any", "ban", "b, banish", "desc", "help"]]
    [["any", "ban", "mod.ban", "desc"]] rfl rfl

/-- Claim C9: if some commands record has fewer than 5 elements or some
permissions record has fewer than 4 elements, the program aborts (tuple
unpacking fails) instead of printing output. -/
theorem claim_C9 (cd pd : List (List String))
    (h : (∃ r ∈ cd, r.length < 5) ∨ (∃ r ∈ pd, r.length < 4)) :
    runProgram cd pd = none := by
  rw [runProgram]
  rcases h with ⟨r, hr, hlen⟩ | ⟨r, hr, hlen⟩
  · rw [unpackAll_eq_none unpackCommand cd r hr
      (unpackCommand_eq_none r (Nat.ne_of_lt hlen))]
  · cases hc : unpackAll unpackCommand cd with
    | none => rfl
    | some cmds =>
      rw [unpackAll_eq_none unpackPerm pd r hr
        (unpackPerm_eq_none r (Nat.ne_of_lt hlen))]

/-- Claim C9, witness: a 4-element commands record aborts the run. -/
theorem claim_C9_witness :
    runProgram [["any", "ban", "b, banish", "desc"]]
      [["any", "ban", "mod.ban", "desc"]] = none :=
  claim_C9 [["any", "ban", "b, banish", "desc"]] [["any", "ban", "mod.ban", "desc"]]
    (Or.inl ⟨["any", "ban", "b, banish", "desc"], by decide, by decide⟩)

/-- Claim C10: if a command's governing record has a non-empty raw alias
field consisting only of whitespace and commas, the stored alias list
contains the empty string, and whenever that command resolves to a node `n`
the output contains the nameless line ` = "n"`. -/
theorem claim_C10 (cmds : List CommandRecord) (perms : List PermRecord)
    (cmd n : String) (r : CommandRecord)
    (hfind : cmds.reverse.find?
      (fun t => t.name == cmd && !(t.rawAliases == "")) = some r)
    (hws : ∀ c ∈ r.rawAliases.data, (isPySpace c || c == ',') = true)
    (hn : dictGet? (buildCommandMap (buildAliases cmds) perms) cmd = some n) :
    (∃ al, dictGet? (buildAliases cmds) cmd = some al ∧ "" ∈ al) ∧
    " = \"" ++ n ++ "\"" ∈
      outputLines (buildAliases cmds) (buildCommandMap (buildAliases cmds) perms) := by
  have hA : dictGet? (buildAliases cmds) cmd = some (parseAliases r.rawAliases) := by
    rw [buildAliases_get, hfind]
    rfl
  have hmem : "" ∈ parseAliases r.rawAliases := mem_empty_parseAliases r.rawAliases hws
  refine ⟨⟨parseAliases r.rawAliases, hA, hmem⟩, ?_⟩
  have hline : renderLine "" n ∈
      outputLines (buildAliases cmds) (buildCommandMap (buildAliases cmds) perms) :=
    mem_outputLines _ _ cmd n "" hn (by rw [hA]; exact List.mem_cons_of_mem _ hmem)
  exact hline

/-- Claim C10, witness: a raw alias field of a single space yields the empty
alias and the nameless output line. -/
theorem claim_C10_witness :
    (∃ al, dictGet? (buildAliases [⟨"any", "ban", " ", "d", "h"⟩]) "ban" =
      some al ∧ "" ∈ al) ∧
    " = \"" ++ "mod.ban" ++ "\"" ∈
      outputLines (buildAliases [⟨"any", "ban", " ", "d", "h"⟩])
        (buildCommandMap (buildAliases [⟨"any", "ban", " ", "d", "h"⟩])
          [⟨"any", "ban", "mod.ban", "d"⟩]) :=
  claim_C10 [⟨"any", "ban", " ", "d", "h"⟩] [⟨"any", "ban", "mod.ban", "d"⟩]
    "ban" "mod.ban" ⟨"any", "ban", " ", "d", "h"⟩ (by decide) (by decide) (by decide)
